import Mathlib

/-!
Shallow embedding of the elevator dispatcher core
(`src/services/ElevatorManager.ts` of ignis05/elevator-system).

TypeScript features are modelled as follows:
* `number` floors and ids become `Int` (all arithmetic in the source is on
  small integers, no overflow or float behaviour is exercised);
* the JS `Set<number>` of destinations becomes an insertion-ordered
  duplicate-free `List Int` (`values().next().value` is the head,
  `add` appends when absent, `delete` erases);
* `Direction | null` becomes `Option Direction`;
* thrown exceptions become an `Option ElevErr` paired with the state at the
  moment of the throw, because in TypeScript the mutations performed before
  a `throw` stick (this is observable through `setElevator` and `step`);
* `Array.prototype.splice` is modelled with JS clamping semantics.
-/

namespace ElevatorSys

inductive Direction where
  | up
  | down
deriving DecidableEq, Repr

inductive WorkStatus where
  | idle
  | moving
  | stopped
deriving DecidableEq, Repr

structure PickupTask where
  floor : Int
  direction : Direction
deriving DecidableEq, Repr

structure FloorLimits where
  top : Int
  bottom : Int
deriving DecidableEq, Repr

/-- Errors thrown by the source.  `noDestinations` is the
`attempted to update move direction without any destinations` abort,
`typeError` is the JS TypeError raised when `setElevator` reads
`currentPickupTask` of `undefined`. -/
inductive ElevErr where
  | badFloor
  | badElevatorId
  | noDestinations
  | typeError
deriving DecidableEq, Repr

structure Elevator where
  id : Int
  currentFloor : Int
  moveDirection : Option Direction
  status : WorkStatus
  destinations : List Int
  currentPickupTask : Option PickupTask
deriving DecidableEq, Repr

/-- `new Elevator(id, currentFloor)` -/
def Elevator.mk0 (id : Int) (currentFloor : Int) : Elevator :=
  { id := id
    currentFloor := currentFloor
    moveDirection := none
    status := WorkStatus.idle
    destinations := []
    currentPickupTask := none }

def Elevator.isIdle (e : Elevator) : Bool :=
  e.status == WorkStatus.idle

def Elevator.hasDestinations (e : Elevator) : Bool :=
  !e.destinations.isEmpty || e.currentPickupTask.isSome

/-- `Math.max(...this.destinations)` over the nonempty destination set. -/
def maxOf (d : Int) (ds : List Int) : Int :=
  ds.foldl max d

/-- `Math.min(...this.destinations)` over the nonempty destination set. -/
def minOf (d : Int) (ds : List Int) : Int :=
  ds.foldl min d

/-- next destination based on priority:
pickup order > farthest stop in current direction > any stop > current floor -/
def Elevator.currentDestination (e : Elevator) : Int :=
  match e.currentPickupTask with
  | some t => t.floor
  | none =>
    match e.destinations with
    | [] => e.currentFloor
    | d :: ds =>
      match e.moveDirection with
      | some Direction.up => maxOf d ds
      | some Direction.down => minOf d ds
      | none => d

/-- `updateMoveDirection`; throws when the current destination equals the
current floor. -/
def Elevator.updateMoveDirection (e : Elevator) : Option ElevErr × Elevator :=
  if e.currentDestination = e.currentFloor then (some ElevErr.noDestinations, e)
  else if e.currentDestination > e.currentFloor then
    (none, { e with moveDirection := some Direction.up })
  else
    (none, { e with moveDirection := some Direction.down })

/-- flip move directions if no more stops are in the same direction;
the two `if`s of the source run in sequence. -/
def Elevator.attemptToFlipMoveDirection (e : Elevator) : Elevator :=
  let e1 :=
    if e.moveDirection = some Direction.up ∧ e.currentDestination < e.currentFloor then
      { e with moveDirection := some Direction.down }
    else e
  if e1.moveDirection = some Direction.down ∧ e1.currentDestination > e1.currentFloor then
    { e1 with moveDirection := some Direction.up }
  else e1

/-- one tick of the cabin state machine (`moveFloor`). -/
def Elevator.moveFloor (e : Elevator) : Option ElevErr × Elevator :=
  match e.status with
  | WorkStatus.idle =>
    if e.hasDestinations then
      if e.destinations.contains e.currentFloor then
        (none, { e with destinations := e.destinations.erase e.currentFloor
                        status := WorkStatus.stopped })
      else
        Elevator.updateMoveDirection { e with status := WorkStatus.moving }
    else (none, e)
  | WorkStatus.stopped =>
    if !e.hasDestinations then
      (none, { e with status := WorkStatus.idle, moveDirection := none })
    else
      let e1 := Elevator.attemptToFlipMoveDirection { e with status := WorkStatus.moving }
      if e1.moveDirection = none then Elevator.updateMoveDirection e1 else (none, e1)
  | WorkStatus.moving =>
    let newFloor := e.currentFloor + (if e.currentDestination > e.currentFloor then 1 else -1)
    let e1 := { e with currentFloor := newFloor }
    let e2 :=
      if e1.destinations.contains newFloor then
        { e1 with destinations := e1.destinations.erase newFloor
                  status := WorkStatus.stopped }
      else e1
    match e2.currentPickupTask with
    | some t =>
      if t.floor = newFloor then
        (none, { e2 with moveDirection := some t.direction
                         currentPickupTask := none
                         status := WorkStatus.stopped })
      else (none, e2)
    | none => (none, e2)

/-- `canClearPickupTask(task, limits, isSoleElevator)`. -/
def Elevator.canClearPickupTask (e : Elevator) (task : PickupTask)
    (limits : Option FloorLimits) (isSoleElevator : Bool) : Bool :=
  if task.floor != e.currentFloor then false
  else if isSoleElevator then true
  else if some task.direction != e.moveDirection then false
  else
    match e.currentPickupTask with
    | some ct =>
      if (match limits with | some l => ct.floor == l.top | none => false)
          && task.direction == Direction.up then true
      else if (match limits with | some l => ct.floor == l.bottom | none => false)
          && task.direction == Direction.down then true
      else if ct.direction != task.direction then false
      else true
    | none => true

structure ElevatorManager where
  elevators : List Elevator
  pickupTasks : List PickupTask
  elevatorCount : Int
  floorLimits : Option FloorLimits
  soleElevatorMode : Bool
deriving DecidableEq, Repr

/-- `new ElevatorManager(elevatorCount, floorLimits)` -/
def mkManager (elevatorCount : Nat) (floorLimits : Option FloorLimits) : ElevatorManager :=
  { elevators := (List.range elevatorCount).map (fun i => Elevator.mk0 i 0)
    pickupTasks := []
    elevatorCount := elevatorCount
    floorLimits := floorLimits
    soleElevatorMode := false }

def ElevatorManager.isWithinLimits (m : ElevatorManager) (floor : Int) : Bool :=
  match m.floorLimits with
  | none => true
  | some l => floor ≤ l.top && floor ≥ l.bottom

/-- the snapshot record built by `status()`:
`{ id, floor, destination, status }` (and nothing else). -/
structure StatusSnapshot where
  id : Int
  floor : Int
  destination : Int
  status : WorkStatus
deriving DecidableEq, Repr

def ElevatorManager.statusSnap (m : ElevatorManager) : List StatusSnapshot :=
  m.elevators.map (fun e =>
    { id := e.id
      floor := e.currentFloor
      destination := e.currentDestination
      status := e.status })

def ElevatorManager.getAllTasks (m : ElevatorManager) : List PickupTask :=
  m.pickupTasks ++ (m.elevators.filterMap (fun e => e.currentPickupTask))

def ElevatorManager.tasks (m : ElevatorManager) : List PickupTask :=
  (m.getAllTasks).map (fun t => { floor := t.floor, direction := t.direction })

def ElevatorManager.pickup (m : ElevatorManager) (floor : Int) (direction : Direction) :
    Option ElevErr × ElevatorManager :=
  if !m.isWithinLimits floor then (some ElevErr.badFloor, m)
  else if m.pickupTasks.any (fun p => p.floor == floor && p.direction == direction) then
    (none, m)
  else
    (none, { m with pickupTasks := m.pickupTasks ++ [{ floor := floor, direction := direction }] })

/-- JS `Set.add`: append when absent. -/
def addDest (floor : Int) (e : Elevator) : Elevator :=
  if e.destinations.contains floor then e
  else { e with destinations := e.destinations ++ [floor] }

/-- replace the element at an index, identity when out of range. -/
def setIdx : List Elevator → Nat → Elevator → List Elevator
  | [], _, _ => []
  | _ :: es, 0, c => c :: es
  | e :: es, n + 1, c => e :: setIdx es n c

/-- apply a function to the element at an index, identity when out of range. -/
def modifyIdx (f : Elevator → Elevator) : List Elevator → Nat → List Elevator
  | [], _ => []
  | e :: es, 0 => f e :: es
  | e :: es, n + 1 => e :: modifyIdx f es n

def ElevatorManager.selectFloor (m : ElevatorManager) (elevatorID : Int) (floor : Int) :
    Option ElevErr × ElevatorManager :=
  if !m.isWithinLimits floor then (some ElevErr.badFloor, m)
  else
    match m.elevators.findIdx? (fun e => e.id == elevatorID) with
    | none => (some ElevErr.badElevatorId, m)
    | some i => (none, { m with elevators := modifyIdx (addDest floor) m.elevators i })

/-- the start index of `Array.prototype.splice`: a negative argument counts
from the end, a too-large one clamps to the length. -/
def spliceStart (id : Int) (len : Nat) : Nat :=
  if id < 0 then (max ((len : Int) + id) 0).toNat else min id.toNat len

/-- `setElevator(id, floor)` with the splice semantics of JS arrays:
a negative `id` counts from the end, an `id` past the end appends the fresh
cabin and then throws a TypeError on `undefined[0].currentPickupTask`. -/
def ElevatorManager.setElevator (m : ElevatorManager) (id : Int) (floor : Int) :
    Option ElevErr × ElevatorManager :=
  let len : Nat := m.elevators.length
  let start : Nat := spliceStart id len
  let newEls := m.elevators.take start ++ [Elevator.mk0 id floor] ++ m.elevators.drop (start + 1)
  match m.elevators.drop start with
  | [] => (some ElevErr.typeError, { m with elevators := newEls })
  | old :: _ =>
    match old.currentPickupTask with
    | some t => (none, { m with elevators := newEls, pickupTasks := m.pickupTasks ++ [t] })
    | none => (none, { m with elevators := newEls })

def ElevatorManager.setElevatorCount (m : ElevatorManager) (newCount : Int) : ElevatorManager :=
  let len : Nat := m.elevators.length
  let els1 :=
    if newCount > (len : Int) then
      m.elevators ++
        (List.range (newCount.toNat - len)).map (fun (j : Nat) => Elevator.mk0 ((len : Int) + j) 0)
    else m.elevators
  let els2 :=
    if newCount < m.elevatorCount then
      let start : Nat :=
        if newCount < 0 then (max ((els1.length : Int) + newCount) 0).toNat
        else min newCount.toNat els1.length
      els1.take start
    else els1
  { m with elevators := els2, elevatorCount := newCount }

def ElevatorManager.setFloorLimits (m : ElevatorManager) (newLimits : Option FloorLimits) :
    ElevatorManager :=
  { m with floorLimits := newLimits }

def ElevatorManager.setSoleElevatorMode (m : ElevatorManager) (enabled : Bool) : ElevatorManager :=
  { m with soleElevatorMode := enabled }

/-- the first loop of `step()`: advance every cabin, then let the
non-idle cabin absorb the first compatible pool task. -/
def advancePhase (limits : Option FloorLimits) (sole : Bool) :
    List Elevator → List PickupTask → Option ElevErr × List Elevator × List PickupTask
  | [], pool => (none, [], pool)
  | e :: es, pool =>
    match Elevator.moveFloor e with
    | (some err, e1) => (some err, e1 :: es, pool)
    | (none, e1) =>
      if e1.status = WorkStatus.idle then
        let r := advancePhase limits sole es pool
        (r.1, e1 :: r.2.1, r.2.2)
      else
        match pool.findIdx? (fun t => e1.canClearPickupTask t limits sole) with
        | some i =>
          let r := advancePhase limits sole es (pool.eraseIdx i)
          (r.1, { e1 with status := WorkStatus.stopped } :: r.2.1, r.2.2)
        | none =>
          let r := advancePhase limits sole es pool
          (r.1, e1 :: r.2.1, r.2.2)

/-- `this.elevators` paired with positions, filtered to idle cabins
(`idleElevators`, remembering where each cabin sits in the fleet array). -/
def idleEnum (k : Nat) : List Elevator → List (Nat × Elevator)
  | [] => []
  | e :: es =>
    if e.status = WorkStatus.idle then (k, e) :: idleEnum (k + 1) es
    else idleEnum (k + 1) es

/-- the `reduce` of the source: keep the current candidate unless the next
cabin is strictly closer to the task's floor. -/
def reduceClosest (t : PickupTask) : Nat × Elevator → List (Nat × Elevator) → Nat × Elevator
  | prev, [] => prev
  | prev, c :: cs =>
    reduceClosest t
      (if (c.2.currentFloor - t.floor).natAbs < (prev.2.currentFloor - t.floor).natAbs then c
       else prev) cs

/-- the second loop of `step()`: while the pool is non-empty and an idle cabin
exists, hand the pool head to the closest idle cabin. -/
def assignPhase : List Elevator → List PickupTask → Option ElevErr × List Elevator × List PickupTask
  | els, [] => (none, els, [])
  | els, t :: rest =>
    match idleEnum 0 els with
    | [] => (none, els, t :: rest)
    | p0 :: ps =>
      let chosen := reduceClosest t p0 ps
      let c1 := { chosen.2 with currentPickupTask := some t, status := WorkStatus.moving }
      match Elevator.updateMoveDirection c1 with
      | (some err, c2) => (some err, setIdx els chosen.1 c2, rest)
      | (none, c2) => assignPhase (setIdx els chosen.1 c2) rest

def ElevatorManager.step (m : ElevatorManager) : Option ElevErr × ElevatorManager :=
  let r := advancePhase m.floorLimits m.soleElevatorMode m.elevators m.pickupTasks
  match r.1 with
  | some err => (some err, { m with elevators := r.2.1, pickupTasks := r.2.2 })
  | none =>
    let r2 := assignPhase r.2.1 r.2.2
    (r2.1, { m with elevators := r2.2.1, pickupTasks := r2.2.2 })

/-- run `step()` a number of times, keeping the state of the last tick. -/
def stepN : Nat → ElevatorManager → ElevatorManager
  | 0, m => m
  | n + 1, m => stepN n (m.step).2

end ElevatorSys

namespace ElevatorSys

/-! ### The decision table of the absorption predicate (claim C3) -/

/-- The absorption decision table exactly as the specification words it,
used to compare against the source function `Elevator.canClearPickupTask`. -/
def canClearSpecTable (e : Elevator) (task : PickupTask)
    (limits : Option FloorLimits) (soleMode : Bool) : Bool :=
  if task.floor ≠ e.currentFloor then false
  else if soleMode then true
  else if e.moveDirection ≠ some task.direction then false
  else
    match e.currentPickupTask with
    | some ap =>
      if some ap.floor = limits.map (fun l => l.top) ∧ task.direction = Direction.up then true
      else if some ap.floor = limits.map (fun l => l.bottom) ∧ task.direction = Direction.down then
        true
      else if ap.direction ≠ task.direction then false
      else true
    | none => true

/-- Claim C3: the source absorption predicate `canClearPickupTask` returns
exactly what the decision table of the specification dictates, for every
cabin, task, limits value and sole-mode flag. -/
theorem c3_canClear_matches_table (e : Elevator) (task : PickupTask)
    (limits : Option FloorLimits) (soleMode : Bool) :
    e.canClearPickupTask task limits soleMode = canClearSpecTable e task limits soleMode := by
  rcases e with ⟨eid, cf, md, st, ds, ct⟩
  rcases task with ⟨tf, td⟩
  unfold Elevator.canClearPickupTask canClearSpecTable
  rcases ct with _ | ⟨apf, apd⟩ <;> rcases limits with _ | ⟨T, B⟩ <;>
    cases td <;> cases soleMode <;> rcases md with _ | ⟨_ | _⟩ <;> simp_all

end ElevatorSys

namespace ElevatorSys

/-! ### Invariant predicates used by the claims -/

/-- indicator of one cabin holding the task `t` as its assigned pickup. -/
def taskInd (t : PickupTask) (e : Elevator) : Nat :=
  if e.currentPickupTask = some t then 1 else 0

/-- how many cabins of a fleet hold the task `t` as their assigned pickup. -/
def countEls (t : PickupTask) : List Elevator → Nat
  | [] => 0
  | e :: es => taskInd t e + countEls t es

/-- how many copies of the task `t` the whole system holds
(pool entries plus assigned pickups). -/
def taskCount (m : ElevatorManager) (t : PickupTask) : Nat :=
  m.pickupTasks.count t + countEls t m.elevators

/-- invariant I1 of the specification: every task value lives in at most one
place, pool or a single cabin slot. -/
def uniqueTasks (m : ElevatorManager) : Prop :=
  ∀ t : PickupTask, taskCount m t ≤ 1

/-- invariant I2 of the specification: an idle cabin has no drop-offs, no
assigned pickup and no move direction. -/
def idleInv (m : ElevatorManager) : Prop :=
  ∀ e ∈ m.elevators, e.status = WorkStatus.idle →
    e.destinations = [] ∧ e.currentPickupTask = none ∧ e.moveDirection = none

/-! ### Concrete dispatcher states used by several claims -/

/-- a fresh one-cabin fleet without floor limits. -/
def mgrOne : ElevatorManager := mkManager 1 none

/-- a fresh one-cabin fleet with floor limits bottom 0, top 3. -/
def mgrLim : ElevatorManager := mkManager 1 (some { top := 3, bottom := 0 })

/-- the state after `pickup(5, up)`, one `step()` (the task is now assigned to
cabin 0) and a second `pickup(5, up)` (deduplication checks the pool only). -/
def dupState : ElevatorManager :=
  ((((mgrOne.pickup 5 Direction.up).2.step).2).pickup 5 Direction.up).2

/-! ### Claim C1 -/

/-- Claim C1: the claim asserts the `attempted to update move direction
without any destinations` abort is unreachable through public operations, in
particular for a pickup at the current floor of an idle cabin.  The code
aborts exactly there: on a fresh one-cabin fleet, `pickup(0, up)` followed by
`step()` reaches the abort inside the assignment phase, leaving the cabin
with the assigned pickup, status moving and no move direction. -/
theorem c1_pickup_at_idle_floor_aborts :
    ((mgrOne.pickup 0 Direction.up).2.step).1 = some ElevErr.noDestinations ∧
    ((mgrOne.pickup 0 Direction.up).2.step).2.elevators.map
        (fun e => (e.currentPickupTask, e.status)) =
      [(some { floor := 0, direction := Direction.up }, WorkStatus.moving)] := by
  decide

/-! ### Claim C2, counterexample part -/

/-- Claim C2 counterexample: after `pickup(5, up)`, `step()`,
`pickup(5, up)`, the task (5, up) is simultaneously a pool entry and the
assigned pickup of cabin 0, so the one-place invariant fails as stated. -/
theorem c2_task_in_pool_and_cabin : ¬ uniqueTasks dupState := by
  intro h
  exact absurd (h { floor := 5, direction := Direction.up }) (by decide)

/-! ### Claim C4, counterexample part -/

/-- Claim C4 counterexample: when the closest idle cabin already sits on the
floor of the pool head, the assignment phase sets the assigned pickup and the
moving status but aborts before any move direction is set, so the cabin
direction is not set toward the task floor as the claim states. -/
theorem c4_same_floor_assignment_aborts :
    (((mgrOne.pickup 0 Direction.up).2.step).2.elevators.map
        (fun e => (e.currentPickupTask, e.status, e.moveDirection)) =
      [(some { floor := 0, direction := Direction.up }, WorkStatus.moving, none)]) ∧
    ((mgrOne.pickup 0 Direction.up).2.step).1.isSome = true := by
  decide

/-! ### Claim C5, counterexample part -/

/-- Claim C5 counterexample: with limits bottom 0, top 3, the public operation
`setElevator(0, 10)` places cabin 0 on floor 10, outside the limits. -/
theorem c5_setElevator_ignores_limits :
    ((mgrLim.setElevator 0 10).2.elevators.map (fun e => e.currentFloor) = [10]) ∧
    mgrLim.isWithinLimits 10 = false := by
  decide

/-! ### Claim C6, counterexample part -/

/-- Claim C6 counterexample: on a one-cabin fleet, `setElevator(1, 5)` (an id
naming no cabin) does raise an error, but the fleet is not left unchanged: a
fresh cabin has been appended before the throw. -/
theorem c6_out_of_range_setElevator_mutates :
    ((mgrOne.setElevator 1 5).1 = some ElevErr.typeError) ∧
    ((mgrOne.setElevator 1 5).2.elevators.length = 2) := by
  decide

/-! ### Claim C7 -/

/-- Claim C7: the snapshot built by `status()` carries only id, floor,
destination and work status; the drop-off floors required by the
`ElevatorStatus` interface are missing.  Two states that differ exactly in
the drop-offs of cabin 0 produce identical snapshots. -/
theorem c7_status_omits_dropOffs :
    (mgrOne.selectFloor 0 0).2.statusSnap = mgrOne.statusSnap ∧
    (mgrOne.selectFloor 0 0).2.elevators ≠ mgrOne.elevators := by
  decide

/-! ### Claim C8 -/

/-- Claim C8: single cabin, no limits; after `pickup(5, down)` the cabin
stops on floor 5 after six ticks with direction down; selecting floors 6, -3
and 20 and stepping once makes the current destination -3 - the drop-off in
the declared pickup direction wins over closer drop-offs the other way. -/
theorem c8_declared_direction_wins :
    ((stepN 6 (mgrOne.pickup 5 Direction.down).2).elevators.map
        (fun e => (e.currentFloor, e.status, e.moveDirection)) =
      [(5, WorkStatus.stopped, some Direction.down)]) ∧
    ((((((stepN 6 (mgrOne.pickup 5 Direction.down).2).selectFloor 0 6).2.selectFloor
            0 (-3)).2.selectFloor 0 20).2.step).2.elevators.map
        (fun e => e.currentDestination) = [-3]) := by
  decide

/-! ### Claim C9, counterexample part -/

/-- Claim C9 counterexample: `selectFloor(0, 5)` on a fresh fleet leaves
cabin 0 idle while its drop-off set is now nonempty, so invariant I2 does not
hold after the public mutator `selectFloor`. -/
theorem c9_selectFloor_breaks_idle_invariant :
    ¬ idleInv (mgrOne.selectFloor 0 5).2 := by
  unfold idleInv
  decide

end ElevatorSys

namespace ElevatorSys

/-! ### Claim C6, amended part -/

/-- Claim C6 (amended): for every id at or past the end of the fleet,
`setElevator(id, floor)` raises an error, but only after appending a fresh
idle cabin at the given floor to the fleet; the pool is unchanged. -/
theorem c6_setElevator_out_of_range (m : ElevatorManager) (id floor : Int)
    (h : (m.elevators.length : Int) ≤ id) :
    m.setElevator id floor =
      (some ElevErr.typeError, { m with elevators := m.elevators ++ [Elevator.mk0 id floor] }) := by
  unfold ElevatorManager.setElevator
  have h1 : spliceStart id m.elevators.length = m.elevators.length := by
    unfold spliceStart
    split_ifs <;> omega
  simp only [h1]
  rw [List.drop_eq_nil_of_le (by omega), List.drop_eq_nil_of_le (by omega),
    List.take_of_length_le (le_refl _)]
  simp

/-- witness for `c6_setElevator_out_of_range` at a concrete input. -/
theorem c6_setElevator_out_of_range_witness :
    ((mgrOne.elevators.length : Int) ≤ 1) ∧
      mgrOne.setElevator 1 5 =
        (some ElevErr.typeError, { mgrOne with elevators := mgrOne.elevators ++ [Elevator.mk0 1 5] }) :=
  ⟨by decide, c6_setElevator_out_of_range mgrOne 1 5 (by decide)⟩

end ElevatorSys

namespace ElevatorSys

/-! ### Helper lemmas about the small state updaters -/

/-- `addDest` changes only the destination set of a cabin. -/
theorem addDest_fields (f : Int) (e : Elevator) :
    (addDest f e).id = e.id ∧ (addDest f e).currentFloor = e.currentFloor ∧
      (addDest f e).moveDirection = e.moveDirection ∧ (addDest f e).status = e.status ∧
      (addDest f e).currentPickupTask = e.currentPickupTask := by
  unfold addDest
  split <;> exact ⟨rfl, rfl, rfl, rfl, rfl⟩

theorem modifyIdx_addDest_map_floor (els : List Elevator) (i : Nat) (f : Int) :
    (modifyIdx (addDest f) els i).map (fun e => e.currentFloor) =
      els.map (fun e => e.currentFloor) := by
  induction els generalizing i with
  | nil => rfl
  | cons e es ih =>
    cases i with
    | zero => simp [modifyIdx, (addDest_fields f e).2.1]
    | succ n => simp [modifyIdx, ih n]

theorem pickup_elevators_eq (m : ElevatorManager) (f : Int) (d : Direction) :
    (m.pickup f d).2.elevators = m.elevators := by
  unfold ElevatorManager.pickup
  split
  · rfl
  · split <;> rfl

theorem selectFloor_map_floor (m : ElevatorManager) (id f : Int) :
    (m.selectFloor id f).2.elevators.map (fun e => e.currentFloor) =
      m.elevators.map (fun e => e.currentFloor) := by
  unfold ElevatorManager.selectFloor
  split
  · rfl
  · split
    · rfl
    · exact modifyIdx_addDest_map_floor m.elevators _ f

/-- in-range `setElevator` replaces the indexed cabin with a fresh idle one
at exactly the requested floor, without any error. -/
theorem setElevator_in_range (m : ElevatorManager) (i : Nat) (f : Int)
    (h : i < m.elevators.length) :
    (m.setElevator (i : Int) f).2.elevators =
      m.elevators.take i ++ [Elevator.mk0 i f] ++ m.elevators.drop (i + 1) ∧
    (m.setElevator (i : Int) f).1 = none := by
  unfold ElevatorManager.setElevator
  have h1 : spliceStart (i : Int) m.elevators.length = i := by
    unfold spliceStart
    split_ifs <;> omega
  simp only [h1]
  obtain ⟨a, l, hd⟩ : ∃ a l, m.elevators.drop i = a :: l := by
    cases hdrop : m.elevators.drop i with
    | nil =>
      exfalso
      have := congrArg List.length hdrop
      simp at this
      omega
    | cons a l => exact ⟨a, l, rfl⟩
  rw [hd]
  cases hc : a.currentPickupTask <;> simp [hc]

/-! ### Claim C5, amended part -/

/-- Claim C5 (amended): when floor limits are set they guard only the call
arguments: `pickup` and `selectFloor` reject out-of-limits floors with the
state unchanged and in any case never change the floor of any cabin, but
`setElevator` performs no limits check at all - it replaces the cabin at an
in-range index with a fresh idle cabin at exactly the requested floor, even
one outside the limits, so the floor-within-limits invariant does not hold
for `setElevator`. -/
theorem c5_limits_guard_calls_not_cabins (m : ElevatorManager) (f1 : Int) (d : Direction)
    (id f2 : Int) (i : Nat) (f3 : Int) (h : i < m.elevators.length) :
    (m.pickup f1 d).2.elevators = m.elevators ∧
    (m.isWithinLimits f1 = false → m.pickup f1 d = (some ElevErr.badFloor, m)) ∧
    (m.selectFloor id f2).2.elevators.map (fun e => e.currentFloor) =
      m.elevators.map (fun e => e.currentFloor) ∧
    (m.isWithinLimits f2 = false → m.selectFloor id f2 = (some ElevErr.badFloor, m)) ∧
    (m.setElevator (i : Int) f3).2.elevators =
      m.elevators.take i ++ [Elevator.mk0 i f3] ++ m.elevators.drop (i + 1) ∧
    (m.setElevator (i : Int) f3).1 = none := by
  refine ⟨pickup_elevators_eq m f1 d, ?_, selectFloor_map_floor m id f2, ?_,
    (setElevator_in_range m i f3 h).1, (setElevator_in_range m i f3 h).2⟩
  · intro hf
    unfold ElevatorManager.pickup
    simp [hf]
  · intro hf
    unfold ElevatorManager.selectFloor
    simp [hf]

/-- witness for `c5_limits_guard_calls_not_cabins` at a concrete input. -/
theorem c5_limits_guard_calls_not_cabins_witness :
    (0 < mgrLim.elevators.length) ∧
    ((mgrLim.pickup 1 Direction.up).2.elevators = mgrLim.elevators ∧
     (mgrLim.isWithinLimits 1 = false → mgrLim.pickup 1 Direction.up = (some ElevErr.badFloor, mgrLim)) ∧
     (mgrLim.selectFloor 0 2).2.elevators.map (fun e => e.currentFloor) =
       mgrLim.elevators.map (fun e => e.currentFloor) ∧
     (mgrLim.isWithinLimits 2 = false → mgrLim.selectFloor 0 2 = (some ElevErr.badFloor, mgrLim)) ∧
     (mgrLim.setElevator ((0 : Nat) : Int) 10).2.elevators =
       mgrLim.elevators.take 0 ++ [Elevator.mk0 (0 : Nat) 10] ++ mgrLim.elevators.drop (0 + 1) ∧
     (mgrLim.setElevator ((0 : Nat) : Int) 10).1 = none) :=
  ⟨by decide, c5_limits_guard_calls_not_cabins mgrLim 1 Direction.up 0 2 0 10 (by decide)⟩

end ElevatorSys

namespace ElevatorSys

/-! ### Claim C10 -/

/-- every cabin field except the destination set. -/
def frameFields (e : Elevator) :
    Int × Int × Option Direction × WorkStatus × Option PickupTask :=
  (e.id, e.currentFloor, e.moveDirection, e.status, e.currentPickupTask)

theorem modifyIdx_get_ne (f : Elevator → Elevator) (els : List Elevator) (i j : Nat)
    (h : j ≠ i) : (modifyIdx f els i).get? j = els.get? j := by
  induction els generalizing i j with
  | nil => rfl
  | cons e es ih =>
    cases i with
    | zero =>
      cases j with
      | zero => exact absurd rfl h
      | succ n => rfl
    | succ k =>
      cases j with
      | zero => rfl
      | succ n => exact ih k n (by omega)

/-- an in-limits `pickup` succeeds and only possibly extends the pool. -/
theorem pickup_ok (m : ElevatorManager) (f : Int) (d : Direction)
    (h : m.isWithinLimits f = true) :
    m.pickup f d =
      (none, { m with pickupTasks :=
        if m.pickupTasks.any (fun p => p.floor == f && p.direction == d) then m.pickupTasks
        else m.pickupTasks ++ [{ floor := f, direction := d }] }) := by
  unfold ElevatorManager.pickup
  rw [h]
  by_cases ha : m.pickupTasks.any (fun p => p.floor == f && p.direction == d) = true
  · simp [ha]
  · simp [ha]

/-- Claim C10: an in-limits `pickup` succeeds and touches no cabin and no
configuration field, and an in-limits `selectFloor` with a valid cabin id
succeeds, keeps the pool and the configuration, rewrites only the cabin at
the found index, leaves every other fleet entry untouched, and even on that
cabin changes nothing but the destination set. -/
theorem c10_pickup_selectFloor_frame (m : ElevatorManager) (f1 : Int) (d : Direction)
    (id f2 : Int) (i : Nat)
    (h1 : m.isWithinLimits f1 = true) (h2 : m.isWithinLimits f2 = true)
    (h3 : m.elevators.findIdx? (fun e => e.id == id) = some i) :
    ((m.pickup f1 d).1 = none ∧
     (m.pickup f1 d).2.elevators = m.elevators ∧
     (m.pickup f1 d).2.floorLimits = m.floorLimits ∧
     (m.pickup f1 d).2.soleElevatorMode = m.soleElevatorMode ∧
     (m.pickup f1 d).2.elevatorCount = m.elevatorCount) ∧
    ((m.selectFloor id f2).1 = none ∧
     (m.selectFloor id f2).2.pickupTasks = m.pickupTasks ∧
     (m.selectFloor id f2).2.floorLimits = m.floorLimits ∧
     (m.selectFloor id f2).2.soleElevatorMode = m.soleElevatorMode ∧
     (m.selectFloor id f2).2.elevatorCount = m.elevatorCount ∧
     (m.selectFloor id f2).2.elevators = modifyIdx (addDest f2) m.elevators i ∧
     (∀ j, j ≠ i → (m.selectFloor id f2).2.elevators.get? j = m.elevators.get? j) ∧
     (∀ e, frameFields (addDest f2 e) = frameFields e)) := by
  have hsel : m.selectFloor id f2 =
      (none, { m with elevators := modifyIdx (addDest f2) m.elevators i }) := by
    unfold ElevatorManager.selectFloor
    simp [h2, h3]
  constructor
  · rw [pickup_ok m f1 d h1]
    exact ⟨rfl, rfl, rfl, rfl, rfl⟩
  · rw [hsel]
    refine ⟨rfl, rfl, rfl, rfl, rfl, rfl, ?_, ?_⟩
    · intro j hj
      exact modifyIdx_get_ne (addDest f2) m.elevators i j hj
    · intro e
      have h := addDest_fields f2 e
      unfold frameFields
      rw [h.1, h.2.1, h.2.2.1, h.2.2.2.1, h.2.2.2.2]

/-- witness for `c10_pickup_selectFloor_frame` at a concrete input. -/
theorem c10_pickup_selectFloor_frame_witness :
    (mgrLim.isWithinLimits 1 = true ∧ mgrLim.isWithinLimits 2 = true ∧
      mgrLim.elevators.findIdx? (fun e => e.id == 0) = some 0) ∧
    ((mgrLim.pickup 1 Direction.up).1 = none ∧
      (mgrLim.pickup 1 Direction.up).2.elevators = mgrLim.elevators) ∧
    ((mgrLim.selectFloor 0 2).1 = none ∧
      (mgrLim.selectFloor 0 2).2.elevators = modifyIdx (addDest 2) mgrLim.elevators 0) :=
  ⟨⟨by decide, by decide, by decide⟩,
    ⟨(c10_pickup_selectFloor_frame mgrLim 1 Direction.up 0 2 0 (by decide) (by decide)
        (by decide)).1.1,
     (c10_pickup_selectFloor_frame mgrLim 1 Direction.up 0 2 0 (by decide) (by decide)
        (by decide)).1.2.1⟩,
    ⟨(c10_pickup_selectFloor_frame mgrLim 1 Direction.up 0 2 0 (by decide) (by decide)
        (by decide)).2.1,
     (c10_pickup_selectFloor_frame mgrLim 1 Direction.up 0 2 0 (by decide) (by decide)
        (by decide)).2.2.2.2.2.2.1⟩⟩

end ElevatorSys

namespace ElevatorSys

/-! ### Lemmas about one cabin tick, toward claim C9 -/

/-- `updateMoveDirection` touches nothing but the move direction. -/
theorem updateMoveDirection_fields (e : Elevator) :
    ((e.updateMoveDirection).2).id = e.id ∧
    ((e.updateMoveDirection).2).currentFloor = e.currentFloor ∧
    ((e.updateMoveDirection).2).status = e.status ∧
    ((e.updateMoveDirection).2).destinations = e.destinations ∧
    ((e.updateMoveDirection).2).currentPickupTask = e.currentPickupTask := by
  unfold Elevator.updateMoveDirection
  split_ifs <;> exact ⟨rfl, rfl, rfl, rfl, rfl⟩

/-- a cabin that is idle after a successful tick has nothing left to do; its
direction is none unless the tick left an already-empty idle cabin alone. -/
theorem moveFloor_idle (e e1 : Elevator) (h : e.moveFloor = (none, e1))
    (hi : e1.status = WorkStatus.idle) :
    e1.destinations = [] ∧ e1.currentPickupTask = none ∧
      (e1.moveDirection = none ∨ (e.status = WorkStatus.idle ∧ e1 = e)) := by
  rcases e with ⟨eid, cf, md, st, ds, ct⟩
  unfold Elevator.moveFloor Elevator.updateMoveDirection Elevator.attemptToFlipMoveDirection at h
  cases st <;> dsimp only at h <;> repeat' split at h
  all_goals simp at h
  all_goals subst h
  all_goals simp_all [Elevator.hasDestinations]

/-- every element of `setIdx els i c` is an element of `els` or is `c`. -/
theorem mem_setIdx (els : List Elevator) (i : Nat) (c x : Elevator)
    (h : x ∈ setIdx els i c) : x ∈ els ∨ x = c := by
  induction els generalizing i with
  | nil => simp [setIdx] at h
  | cons e es ih =>
    cases i with
    | zero =>
      rcases List.mem_cons.mp h with h | h
      · right; exact h
      · left; exact List.mem_cons_of_mem e h
    | succ k =>
      rcases List.mem_cons.mp h with h | h
      · left; exact h ▸ List.mem_cons_self e es
      · rcases ih k h with h | h
        · left; exact List.mem_cons_of_mem e h
        · right; exact h

/-- after the advance-and-absorb phase of a successful `step()`, every idle
cabin has empty destinations, no pickup, and (given the direction invariant
held before) no direction. -/
theorem advancePhase_idle (L : Option FloorLimits) (S : Bool) :
    ∀ (els : List Elevator) (pool : List PickupTask),
      (∀ e ∈ els, e.status = WorkStatus.idle → e.moveDirection = none) →
      (advancePhase L S els pool).1 = none →
      ∀ e1 ∈ (advancePhase L S els pool).2.1, e1.status = WorkStatus.idle →
        e1.destinations = [] ∧ e1.currentPickupTask = none ∧ e1.moveDirection = none := by
  intro els
  induction els with
  | nil =>
    intro pool _ _ e1 he1
    simp [advancePhase] at he1
  | cons e es ih =>
    intro pool hd herr e1 he1 hi
    have hdes : ∀ x ∈ es, x.status = WorkStatus.idle → x.moveDirection = none :=
      fun x hx => hd x (List.mem_cons_of_mem e hx)
    rcases hmv : Elevator.moveFloor e with ⟨err, e2⟩
    cases err with
    | some er =>
      simp only [advancePhase, hmv] at herr
      exact absurd herr (by simp)
    | none =>
      by_cases hst : e2.status = WorkStatus.idle
      · simp only [advancePhase, hmv, hst, if_true] at herr he1
        rcases List.mem_cons.mp he1 with h | h
        · subst h
          have hm := moveFloor_idle e e1 hmv hi
          refine ⟨hm.1, hm.2.1, ?_⟩
          rcases hm.2.2 with h2 | ⟨hide, heq⟩
          · exact h2
          · rw [heq]
            exact hd e (List.mem_cons_self e es) hide
        · exact ih pool hdes herr e1 h hi
      · rcases hfi : pool.findIdx? (fun t => e2.canClearPickupTask t L S) with _ | i
        · simp only [advancePhase, hmv, hst, if_false, hfi] at herr he1
          rcases List.mem_cons.mp he1 with h | h
          · exact absurd (h ▸ hi) hst
          · exact ih pool hdes herr e1 h hi
        · simp only [advancePhase, hmv, hst, if_false, hfi] at herr he1
          rcases List.mem_cons.mp he1 with h | h
          · rw [h] at hi
            simp at hi
          · exact ih (pool.eraseIdx i) hdes herr e1 h hi

/-- the assignment phase only rewrites cabins into the moving state: any
cabin of its output fleet is an input cabin or is moving. -/
theorem assignPhase_mem :
    ∀ (pool : List PickupTask) (els : List Elevator) (e1 : Elevator),
      e1 ∈ (assignPhase els pool).2.1 → e1 ∈ els ∨ e1.status = WorkStatus.moving := by
  intro pool
  induction pool with
  | nil => intro els e1 he1; exact Or.inl he1
  | cons t rest ih =>
    intro els e1 he1
    rcases hie : idleEnum 0 els with _ | ⟨p0, ps⟩
    · simp only [assignPhase, hie] at he1
      exact Or.inl he1
    · rcases hupd : Elevator.updateMoveDirection
          { reduceClosest t p0 ps |>.2 with
            currentPickupTask := some t, status := WorkStatus.moving } with ⟨err, c2⟩
      have hc2 : c2.status = WorkStatus.moving := by
        have := (updateMoveDirection_fields
          { reduceClosest t p0 ps |>.2 with
            currentPickupTask := some t, status := WorkStatus.moving }).2.2.1
        rw [hupd] at this
        exact this
      cases err with
      | some er =>
        simp only [assignPhase, hie, hupd] at he1
        rcases mem_setIdx els (reduceClosest t p0 ps).1 c2 e1 he1 with h | h
        · exact Or.inl h
        · exact Or.inr (h ▸ hc2)
      | none =>
        simp only [assignPhase, hie, hupd] at he1
        rcases ih (setIdx els (reduceClosest t p0 ps).1 c2) e1 he1 with h | h
        · rcases mem_setIdx els (reduceClosest t p0 ps).1 c2 e1 h with h2 | h2
          · exact Or.inl h2
          · exact Or.inr (h2 ▸ hc2)
        · exact Or.inr h

/-! ### Claim C9, amended part -/

/-- Claim C9 (amended): after every successful `step()` - though not after
the mutator `selectFloor`, which can leave an idle cabin holding a fresh
drop-off until the next tick - every idle cabin has an empty drop-off set,
no assigned pickup and an unassigned direction, provided every idle cabin
had an unassigned direction beforehand. -/
theorem c9_step_restores_idle_invariant (m : ElevatorManager)
    (hdir : ∀ e ∈ m.elevators, e.status = WorkStatus.idle → e.moveDirection = none)
    (hok : (m.step).1 = none) :
    idleInv (m.step).2 := by
  rcases hadv : advancePhase m.floorLimits m.soleElevatorMode m.elevators m.pickupTasks
    with ⟨err, els1, pool1⟩
  cases err with
  | some er =>
    unfold ElevatorManager.step at hok
    rw [hadv] at hok
    exact absurd hok (by simp)
  | none =>
    unfold ElevatorManager.step at hok ⊢
    rw [hadv] at hok ⊢
    intro e1 he1 hi
    simp only at he1
    have hP : ∀ x ∈ els1, x.status = WorkStatus.idle →
        x.destinations = [] ∧ x.currentPickupTask = none ∧ x.moveDirection = none := by
      intro x hx
      have := advancePhase_idle m.floorLimits m.soleElevatorMode m.elevators m.pickupTasks
        hdir (by rw [hadv]) x (by rw [hadv]; exact hx)
      exact this
    rcases assignPhase_mem pool1 els1 e1 he1 with h | h
    · exact hP e1 h hi
    · rw [h] at hi
      simp at hi

/-- witness for `c9_step_restores_idle_invariant` at a concrete input. -/
theorem c9_step_restores_idle_invariant_witness :
    (∀ e ∈ mgrOne.elevators, e.status = WorkStatus.idle → e.moveDirection = none) ∧
    (mgrOne.step).1 = none ∧ idleInv (mgrOne.step).2 :=
  ⟨by decide, by decide, c9_step_restores_idle_invariant mgrOne (by decide) (by decide)⟩

end ElevatorSys

namespace ElevatorSys

/-! ### The closest-idle choice of the assignment phase (claim C4) -/

/-- distance between a cabin and the floor of a task (`Math.abs`). -/
def distTo (t : PickupTask) (e : Elevator) : Nat :=
  (e.currentFloor - t.floor).natAbs

theorem reduceClosest_mem (t : PickupTask) :
    ∀ (ps : List (Nat × Elevator)) (p0 : Nat × Elevator), reduceClosest t p0 ps ∈ p0 :: ps := by
  intro ps
  induction ps with
  | nil => intro p0; simp [reduceClosest]
  | cons c cs ih =>
    intro p0
    simp only [reduceClosest]
    by_cases hlt : (c.2.currentFloor - t.floor).natAbs < (p0.2.currentFloor - t.floor).natAbs
    · rw [if_pos hlt]
      exact List.mem_cons_of_mem p0 (ih c)
    · rw [if_neg hlt]
      rcases List.mem_cons.mp (ih p0) with h | h
      · rw [h]; exact List.mem_cons_self p0 (c :: cs)
      · exact List.mem_cons_of_mem p0 (List.mem_cons_of_mem c h)

theorem reduceClosest_min (t : PickupTask) :
    ∀ (ps : List (Nat × Elevator)) (p0 : Nat × Elevator),
      ∀ q ∈ p0 :: ps, distTo t (reduceClosest t p0 ps).2 ≤ distTo t q.2 := by
  intro ps
  induction ps with
  | nil =>
    intro p0 q hq
    rcases List.mem_cons.mp hq with h | h
    · rw [h]; simp [reduceClosest]
    · simp at h
  | cons c cs ih =>
    intro p0 q hq
    simp only [reduceClosest]
    by_cases hlt : (c.2.currentFloor - t.floor).natAbs < (p0.2.currentFloor - t.floor).natAbs
    · rw [if_pos hlt]
      rcases List.mem_cons.mp hq with h | hq2
      · have h1 := ih c c (List.mem_cons_self c cs)
        have h2 : distTo t c.2 ≤ distTo t q.2 := by
          rw [h]; unfold distTo; omega
        exact le_trans h1 h2
      · exact ih c q hq2
    · rw [if_neg hlt]
      rcases List.mem_cons.mp hq with h | hq2
      · exact h ▸ ih p0 p0 (List.mem_cons_self p0 cs)
      · rcases List.mem_cons.mp hq2 with h | hq3
        · have h1 := ih p0 p0 (List.mem_cons_self p0 cs)
          have h2 : distTo t p0.2 ≤ distTo t q.2 := by
            rw [h]; unfold distTo; omega
          exact le_trans h1 h2
        · exact ih p0 q (List.mem_cons_of_mem p0 hq3)

/-- the reduce of the source keeps the running candidate on a tie, so the
final candidate is the first minimiser: any later element only replaces it by
a strictly smaller distance. -/
theorem reduceClosest_strict (t : PickupTask) :
    ∀ (ps : List (Nat × Elevator)) (p0 : Nat × Elevator),
      reduceClosest t p0 ps = p0 ∨
        distTo t (reduceClosest t p0 ps).2 < distTo t p0.2 := by
  intro ps
  induction ps with
  | nil => intro p0; exact Or.inl rfl
  | cons c cs ih =>
    intro p0
    simp only [reduceClosest]
    by_cases hlt : (c.2.currentFloor - t.floor).natAbs < (p0.2.currentFloor - t.floor).natAbs
    · rw [if_pos hlt]
      rcases ih c with h | h
      · right; rw [h]; unfold distTo; omega
      · right
        have : distTo t c.2 < distTo t p0.2 := by unfold distTo; omega
        exact lt_trans h this
    · rw [if_neg hlt]
      exact ih p0

theorem reduceClosest_tie (t : PickupTask) :
    ∀ (ps : List (Nat × Elevator)) (p0 : Nat × Elevator),
      List.Pairwise (fun a b : Nat × Elevator => a.2.id < b.2.id) (p0 :: ps) →
      ∀ q ∈ p0 :: ps, distTo t q.2 = distTo t (reduceClosest t p0 ps).2 →
        (reduceClosest t p0 ps).2.id ≤ q.2.id := by
  intro ps
  induction ps with
  | nil =>
    intro p0 _ q hq _
    rcases List.mem_cons.mp hq with h | h
    · rw [h]; simp [reduceClosest]
    · simp at h
  | cons c cs ih =>
    intro p0 hp q hq htie
    have hfacts := List.pairwise_cons.mp hp
    have hpcs : List.Pairwise (fun a b : Nat × Elevator => a.2.id < b.2.id) (c :: cs) := hfacts.2
    have hp0cs : List.Pairwise (fun a b : Nat × Elevator => a.2.id < b.2.id) (p0 :: cs) :=
      List.pairwise_cons.mpr
        ⟨fun x hx => hfacts.1 x (List.mem_cons_of_mem c hx),
         (List.pairwise_cons.mp hpcs).2⟩
    simp only [reduceClosest] at htie ⊢
    by_cases hlt : (c.2.currentFloor - t.floor).natAbs < (p0.2.currentFloor - t.floor).natAbs
    · rw [if_pos hlt] at htie ⊢
      rcases List.mem_cons.mp hq with h | hq2
      · exfalso
        have h1 := reduceClosest_min t cs c c (List.mem_cons_self c cs)
        rw [h] at htie
        unfold distTo at h1 htie
        omega
      · exact ih c hpcs q hq2 htie
    · rw [if_neg hlt] at htie ⊢
      rcases List.mem_cons.mp hq with h | hq2
      · exact ih p0 hp0cs q (h ▸ List.mem_cons_self p0 cs) htie
      · rcases List.mem_cons.mp hq2 with h | hq3
        · rcases reduceClosest_strict t cs p0 with h2 | h2
          · rw [h2]
            have : p0.2.id < c.2.id := hfacts.1 c (List.mem_cons_self c cs)
            rw [h]
            exact le_of_lt this
          · exfalso
            rw [h] at htie
            unfold distTo at h2 htie
            omega
        · exact ih p0 hp0cs q (List.mem_cons_of_mem p0 hq3) htie

/-! ### The idle enumeration of the fleet -/

theorem idleEnum_snd_mem :
    ∀ (els : List Elevator) (k : Nat) (p : Nat × Elevator),
      p ∈ idleEnum k els → p.2 ∈ els := by
  intro els
  induction els with
  | nil => intro k p hp; simp [idleEnum] at hp
  | cons e es ih =>
    intro k p hp
    unfold idleEnum at hp
    by_cases hst : e.status = WorkStatus.idle
    · rw [if_pos hst] at hp
      rcases List.mem_cons.mp hp with h | h
      · rw [h]; exact List.mem_cons_self e es
      · exact List.mem_cons_of_mem e (ih (k + 1) p h)
    · rw [if_neg hst] at hp
      exact List.mem_cons_of_mem e (ih (k + 1) p hp)

theorem idleEnum_spec :
    ∀ (els : List Elevator) (k : Nat) (p : Nat × Elevator), p ∈ idleEnum k els →
      k ≤ p.1 ∧ els.get? (p.1 - k) = some p.2 ∧ p.2.status = WorkStatus.idle := by
  intro els
  induction els with
  | nil => intro k p hp; simp [idleEnum] at hp
  | cons e es ih =>
    intro k p hp
    unfold idleEnum at hp
    by_cases hst : e.status = WorkStatus.idle
    · rw [if_pos hst] at hp
      rcases List.mem_cons.mp hp with h | h
      · rw [h]
        exact ⟨le_refl k, by simp, hst⟩
      · have hs := ih (k + 1) p h
        refine ⟨by omega, ?_, hs.2.2⟩
        have hgt : p.1 - k = (p.1 - (k + 1)) + 1 := by omega
        rw [hgt, List.get?_cons_succ]
        exact hs.2.1
    · rw [if_neg hst] at hp
      have hs := ih (k + 1) p hp
      refine ⟨by omega, ?_, hs.2.2⟩
      have hgt : p.1 - k = (p.1 - (k + 1)) + 1 := by omega
      rw [hgt, List.get?_cons_succ]
      exact hs.2.1

theorem idleEnum_pairwise :
    ∀ (els : List Elevator) (k : Nat),
      List.Pairwise (fun a b : Elevator => a.id < b.id) els →
      List.Pairwise (fun a b : Nat × Elevator => a.2.id < b.2.id) (idleEnum k els) := by
  intro els
  induction els with
  | nil => intro k _; simp [idleEnum]
  | cons e es ih =>
    intro k hp
    obtain ⟨h1, h2⟩ := List.pairwise_cons.mp hp
    unfold idleEnum
    by_cases hst : e.status = WorkStatus.idle
    · rw [if_pos hst]
      refine List.pairwise_cons.mpr ⟨?_, ih (k + 1) h2⟩
      intro p hp2
      exact h1 p.2 (idleEnum_snd_mem es (k + 1) p hp2)
    · rw [if_neg hst]
      exact ih (k + 1) h2

end ElevatorSys

namespace ElevatorSys

/-! ### Claim C4, amended part -/

/-- Claim C4 (amended): whenever the pool is non-empty and some cabin is
idle, the assignment phase removes the head of the pool and gives it to the
idle cabin of minimal distance to the task floor, ties broken by lowest id
(for a fleet with strictly increasing ids); that cabin gets the task as its
assigned pickup, becomes moving, and - provided it does not already sit on
the task floor, in which case the dispatcher aborts before any direction is
written - its direction is set toward the task floor. -/
theorem c4_closest_idle_assignment (els : List Elevator) (t : PickupTask)
    (rest : List PickupTask) (p0 : Nat × Elevator) (ps : List (Nat × Elevator))
    (hord : List.Pairwise (fun a b : Elevator => a.id < b.id) els)
    (hie : idleEnum 0 els = p0 :: ps)
    (hne : (reduceClosest t p0 ps).2.currentFloor ≠ t.floor) :
    reduceClosest t p0 ps ∈ p0 :: ps ∧
    els.get? (reduceClosest t p0 ps).1 = some (reduceClosest t p0 ps).2 ∧
    (reduceClosest t p0 ps).2.status = WorkStatus.idle ∧
    (∀ q ∈ p0 :: ps, distTo t (reduceClosest t p0 ps).2 ≤ distTo t q.2) ∧
    (∀ q ∈ p0 :: ps, distTo t q.2 = distTo t (reduceClosest t p0 ps).2 →
      (reduceClosest t p0 ps).2.id ≤ q.2.id) ∧
    assignPhase els (t :: rest) =
      assignPhase (setIdx els (reduceClosest t p0 ps).1
        { (reduceClosest t p0 ps).2 with
            currentPickupTask := some t
            status := WorkStatus.moving
            moveDirection := some (if t.floor > (reduceClosest t p0 ps).2.currentFloor
              then Direction.up else Direction.down) }) rest := by
  have hmem := reduceClosest_mem t ps p0
  have hmem2 : reduceClosest t p0 ps ∈ idleEnum 0 els := by
    rw [hie]; exact hmem
  have hspec := idleEnum_spec els 0 (reduceClosest t p0 ps) hmem2
  refine ⟨hmem, ?_, hspec.2.2, reduceClosest_min t ps p0, ?_, ?_⟩
  · have hg := hspec.2.1
    simpa using hg
  · intro q hq htie
    have hpw := idleEnum_pairwise els 0 hord
    rw [hie] at hpw
    exact reduceClosest_tie t ps p0 hpw q hq htie
  · have hupd : Elevator.updateMoveDirection
        { (reduceClosest t p0 ps).2 with
            currentPickupTask := some t, status := WorkStatus.moving } =
        (none, { (reduceClosest t p0 ps).2 with
            currentPickupTask := some t
            status := WorkStatus.moving
            moveDirection := some (if t.floor > (reduceClosest t p0 ps).2.currentFloor
              then Direction.up else Direction.down) }) := by
      unfold Elevator.updateMoveDirection
      by_cases hgt : t.floor > (reduceClosest t p0 ps).2.currentFloor <;>
        simp [Elevator.currentDestination, hgt, Ne.symm hne]
    simp only [assignPhase, hie, hupd]

/-- a two-cabin fleet, cabin 0 on floor 0 and cabin 1 on floor 4. -/
def fleetTwo : List Elevator := [Elevator.mk0 0 0, Elevator.mk0 1 4]

/-- the hall call (floor 3, up). -/
def taskThree : PickupTask := { floor := 3, direction := Direction.up }

/-- witness for `c4_closest_idle_assignment` at a concrete input: cabin 1 is
the closer idle cabin for a pickup at floor 3. -/
theorem c4_closest_idle_assignment_witness :
    (List.Pairwise (fun a b : Elevator => a.id < b.id) fleetTwo ∧
     idleEnum 0 fleetTwo = (0, Elevator.mk0 0 0) :: [(1, Elevator.mk0 1 4)] ∧
     (reduceClosest taskThree (0, Elevator.mk0 0 0) [(1, Elevator.mk0 1 4)]).2.currentFloor ≠
       taskThree.floor) ∧
    assignPhase fleetTwo (taskThree :: []) =
      assignPhase
        (setIdx fleetTwo
          (reduceClosest taskThree (0, Elevator.mk0 0 0) [(1, Elevator.mk0 1 4)]).1
          { (reduceClosest taskThree (0, Elevator.mk0 0 0) [(1, Elevator.mk0 1 4)]).2 with
              currentPickupTask := some taskThree
              status := WorkStatus.moving
              moveDirection := some (if taskThree.floor >
                  (reduceClosest taskThree (0, Elevator.mk0 0 0) [(1, Elevator.mk0 1 4)]).2.currentFloor
                then Direction.up else Direction.down) }) [] :=
  ⟨⟨by decide, by decide, by decide⟩,
   (c4_closest_idle_assignment fleetTwo taskThree [] (0, Elevator.mk0 0 0)
      [(1, Elevator.mk0 1 4)] (by decide) (by decide) (by decide)).2.2.2.2.2⟩

end ElevatorSys

namespace ElevatorSys

/-! ### Task counting, toward claim C2 -/

theorem countEls_append (t : PickupTask) (a b : List Elevator) :
    countEls t (a ++ b) = countEls t a + countEls t b := by
  induction a with
  | nil => simp [countEls]
  | cons e es ih => simp [countEls, ih]; omega

theorem countEls_take_le (t : PickupTask) (l : List Elevator) (n : Nat) :
    countEls t (l.take n) ≤ countEls t l := by
  conv_rhs => rw [← List.take_append_drop n l]
  rw [countEls_append]
  omega

theorem countEls_zero_of_none (t : PickupTask) :
    ∀ (l : List Elevator), (∀ e ∈ l, e.currentPickupTask ≠ some t) → countEls t l = 0 := by
  intro l
  induction l with
  | nil => intro _; rfl
  | cons e es ih =>
    intro hl
    have h1 : taskInd t e = 0 := by
      unfold taskInd
      simp [hl e (List.mem_cons_self e es)]
    simp [countEls, h1, ih (fun x hx => hl x (List.mem_cons_of_mem e hx))]

/-- a cabin tick either keeps the assigned pickup or clears it. -/
theorem moveFloor_task_or (e : Elevator) :
    ((e.moveFloor).2).currentPickupTask = e.currentPickupTask ∨
      ((e.moveFloor).2).currentPickupTask = none := by
  rcases e with ⟨eid, cf, md, st, ds, ct⟩
  unfold Elevator.moveFloor Elevator.updateMoveDirection Elevator.attemptToFlipMoveDirection
  cases st <;> dsimp only <;> repeat' split
  all_goals simp

theorem moveFloor_taskInd_le (e : Elevator) (t : PickupTask) :
    taskInd t (e.moveFloor).2 ≤ taskInd t e := by
  rcases moveFloor_task_or e with h | h
  · unfold taskInd
    rw [h]
  · unfold taskInd
    rw [h]
    simp

/-- the advance-and-absorb phase never increases the number of copies of any
task held by the system. -/
theorem advancePhase_count (L : Option FloorLimits) (S : Bool) :
    ∀ (els : List Elevator) (pool : List PickupTask) (t : PickupTask),
      (advancePhase L S els pool).2.2.count t + countEls t (advancePhase L S els pool).2.1 ≤
        pool.count t + countEls t els := by
  intro els
  induction els with
  | nil => intro pool t; simp [advancePhase, countEls]
  | cons e es ih =>
    intro pool t
    rcases hmv : Elevator.moveFloor e with ⟨err, e2⟩
    have hle : taskInd t e2 ≤ taskInd t e := by
      have h := moveFloor_taskInd_le e t
      rw [hmv] at h
      exact h
    cases err with
    | some er =>
      simp only [advancePhase, hmv, countEls]
      omega
    | none =>
      by_cases hst : e2.status = WorkStatus.idle
      · simp only [advancePhase, hmv, hst, if_true, countEls]
        have := ih pool t
        omega
      · rcases hfi : pool.findIdx? (fun x => e2.canClearPickupTask x L S) with _ | i
        · simp only [advancePhase, hmv, hst, if_false, hfi, countEls]
          have := ih pool t
          omega
        · simp only [advancePhase, hmv, hst, if_false, hfi, countEls]
          have h1 := ih (pool.eraseIdx i) t
          have h2 : (pool.eraseIdx i).count t ≤ pool.count t :=
            (List.eraseIdx_sublist pool i).count_le t
          have h3 : taskInd t { e2 with status := WorkStatus.stopped } = taskInd t e2 := rfl
          omega

theorem countEls_setIdx (t : PickupTask) :
    ∀ (els : List Elevator) (i : Nat) (c a : Elevator), els.get? i = some a →
      countEls t (setIdx els i c) + taskInd t a = countEls t els + taskInd t c := by
  intro els
  induction els with
  | nil => intro i c a h; simp at h
  | cons e es ih =>
    intro i c a h
    cases i with
    | zero =>
      have he : e = a := by simpa using h
      subst he
      simp [setIdx, countEls]
      omega
    | succ k =>
      have hk : es.get? k = some a := by simpa using h
      have := ih k c a hk
      simp [setIdx, countEls]
      omega

/-- the assignment phase never increases the number of copies of any task:
each iteration moves the pool head into exactly one cabin slot. -/
theorem assignPhase_count :
    ∀ (pool : List PickupTask) (els : List Elevator) (t : PickupTask),
      (assignPhase els pool).2.2.count t + countEls t (assignPhase els pool).2.1 ≤
        pool.count t + countEls t els := by
  intro pool
  induction pool with
  | nil => intro els t; simp [assignPhase]
  | cons thead rest ih =>
    intro els t
    rcases hie : idleEnum 0 els with _ | ⟨p0, ps⟩
    · simp only [assignPhase, hie]
      exact le_refl _
    · have hmem : reduceClosest thead p0 ps ∈ idleEnum 0 els := by
        rw [hie]; exact reduceClosest_mem thead ps p0
      have hspec := idleEnum_spec els 0 _ hmem
      have hget : els.get? (reduceClosest thead p0 ps).1 =
          some (reduceClosest thead p0 ps).2 := by
        simpa using hspec.2.1
      rcases hupd : Elevator.updateMoveDirection
          { (reduceClosest thead p0 ps).2 with
            currentPickupTask := some thead, status := WorkStatus.moving } with ⟨err, c2⟩
      have hc2task : c2.currentPickupTask = some thead := by
        have hf := (updateMoveDirection_fields
          { (reduceClosest thead p0 ps).2 with
            currentPickupTask := some thead, status := WorkStatus.moving }).2.2.2.2
        rw [hupd] at hf
        exact hf
      have hkey := countEls_setIdx t els (reduceClosest thead p0 ps).1 c2
        (reduceClosest thead p0 ps).2 hget
      have hcnt : (thead :: rest).count t = rest.count t + (if thead = t then 1 else 0) := by
        by_cases hh : thead = t <;> simp [List.count_cons, hh]
      have hindc2 : taskInd t c2 = (if thead = t then 1 else 0) := by
        unfold taskInd
        rw [hc2task]
        by_cases hh : thead = t <;> simp [hh]
      cases err with
      | some er =>
        simp only [assignPhase, hie, hupd]
        omega
      | none =>
        simp only [assignPhase, hie, hupd]
        have h1 := ih (setIdx els (reduceClosest thead p0 ps).1 c2) t
        omega

/-- one `step()` never increases the number of copies of any task. -/
theorem step_taskCount_le (m : ElevatorManager) (t : PickupTask) :
    taskCount (m.step).2 t ≤ taskCount m t := by
  unfold ElevatorManager.step taskCount
  rcases hadv : advancePhase m.floorLimits m.soleElevatorMode m.elevators m.pickupTasks
    with ⟨err, els1, pool1⟩
  have ha := advancePhase_count m.floorLimits m.soleElevatorMode m.elevators m.pickupTasks t
  rw [hadv] at ha
  dsimp only at ha
  cases err with
  | some er =>
    simp only [hadv]
    exact ha
  | none =>
    simp only [hadv]
    have hb := assignPhase_count pool1 els1 t
    omega

end ElevatorSys

namespace ElevatorSys

/-! ### Task counting for the remaining operations (claim C2) -/

theorem countEls_modifyIdx_addDest (t : PickupTask) (f : Int) :
    ∀ (els : List Elevator) (i : Nat),
      countEls t (modifyIdx (addDest f) els i) = countEls t els := by
  intro els
  induction els with
  | nil => intro i; rfl
  | cons e es ih =>
    intro i
    cases i with
    | zero =>
      have h1 : taskInd t (addDest f e) = taskInd t e := by
        unfold taskInd
        rw [(addDest_fields f e).2.2.2.2]
      simp [modifyIdx, countEls, h1]
    | succ k => simp [modifyIdx, countEls, ih k]

theorem selectFloor_taskCount (m : ElevatorManager) (idv f : Int) (t : PickupTask) :
    taskCount (m.selectFloor idv f).2 t = taskCount m t := by
  unfold ElevatorManager.selectFloor
  split
  · rfl
  · split
    · rfl
    · unfold taskCount
      dsimp only
      rw [countEls_modifyIdx_addDest]

/-- `setElevator` moves the replaced cabin task (if any) to the pool, so the
total number of copies of any task never grows. -/
theorem setElevator_taskCount_le (m : ElevatorManager) (idv fl : Int) (t : PickupTask) :
    taskCount (m.setElevator idv fl).2 t ≤ taskCount m t := by
  unfold ElevatorManager.setElevator
  dsimp only
  generalize hE : spliceStart idv m.elevators.length = E
  have hsplit : countEls t m.elevators =
      countEls t (m.elevators.take E) + countEls t (m.elevators.drop E) := by
    conv_lhs => rw [← List.take_append_drop E m.elevators]
    rw [countEls_append]
  have hmk0 : taskInd t (Elevator.mk0 idv fl) = 0 := rfl
  split
  · rename_i heq
    have hlen : m.elevators.length ≤ E := by
      have := congrArg List.length heq
      simp at this
      omega
    have hd1 : m.elevators.drop (E + 1) = [] := List.drop_eq_nil_of_le (by omega)
    unfold taskCount
    dsimp only
    rw [countEls_append, countEls_append, hd1]
    rw [heq] at hsplit
    simp [countEls, hmk0] at hsplit ⊢
    omega
  · rename_i old tail heq
    have hd1 : m.elevators.drop (E + 1) = tail := by
      have h3 : m.elevators.drop (E + 1) = (m.elevators.drop E).drop 1 := by
        rw [List.drop_drop]
      rw [h3, heq]
      rfl
    rw [heq] at hsplit
    have hcons : countEls t (old :: tail) = taskInd t old + countEls t tail := rfl
    split
    · rename_i tk heq2
      have hindold : taskInd t old = (if tk = t then 1 else 0) := by
        unfold taskInd
        rw [heq2]
        by_cases hh : tk = t <;> simp [hh]
      unfold taskCount
      dsimp only
      rw [countEls_append, countEls_append, hd1, List.count_append]
      have hone : [tk].count t = (if tk = t then 1 else 0) := by
        by_cases hh : tk = t <;> simp [List.count_cons, hh]
      rw [hone]
      simp only [countEls, hmk0] at hsplit ⊢
      omega
    · rename_i heq2
      have hindold : taskInd t old = 0 := by
        unfold taskInd
        simp [heq2]
      unfold taskCount
      dsimp only
      rw [countEls_append, countEls_append, hd1]
      simp only [countEls, hmk0] at hsplit ⊢
      omega

theorem setElevatorCount_taskCount_le (m : ElevatorManager) (n : Int) (t : PickupTask) :
    taskCount (m.setElevatorCount n) t ≤ taskCount m t := by
  unfold ElevatorManager.setElevatorCount taskCount
  dsimp only
  have hnew : countEls t ((List.range (n.toNat - m.elevators.length)).map
      (fun (j : Nat) => Elevator.mk0 ((m.elevators.length : Int) + j) 0)) = 0 := by
    apply countEls_zero_of_none
    intro e he
    rcases List.mem_map.mp he with ⟨j, _, rfl⟩
    simp [Elevator.mk0]
  refine Nat.add_le_add_left ?_ _
  have h1 : countEls t (if n > (m.elevators.length : Int) then
      m.elevators ++ (List.range (n.toNat - m.elevators.length)).map
        (fun (j : Nat) => Elevator.mk0 ((m.elevators.length : Int) + j) 0)
    else m.elevators) = countEls t m.elevators := by
    split
    · rw [countEls_append, hnew]
      omega
    · rfl
  split
  · exact le_trans (countEls_take_le _ _ _) (le_of_eq h1)
  · exact le_of_eq h1

theorem pickup_uniqueTasks (m : ElevatorManager) (f : Int) (d : Direction)
    (hno : ∀ e ∈ m.elevators, e.currentPickupTask ≠ some { floor := f, direction := d })
    (h : uniqueTasks m) : uniqueTasks (m.pickup f d).2 := by
  by_cases hw : m.isWithinLimits f = true
  · rw [pickup_ok m f d hw]
    by_cases ha : (m.pickupTasks.any (fun p => p.floor == f && p.direction == d)) = true
    · rw [if_pos ha]
      exact h
    · rw [if_neg ha]
      intro t
      unfold taskCount
      dsimp only
      by_cases ht : t = { floor := f, direction := d }
      · have hcnt0 : m.pickupTasks.count t = 0 := by
          rw [List.count_eq_zero]
          intro hmem
          apply ha
          refine List.any_eq_true.mpr ⟨t, hmem, ?_⟩
          rw [ht]
          simp
        have hels0 : countEls t m.elevators = 0 := by
          apply countEls_zero_of_none
          intro e he
          rw [ht]
          exact hno e he
        rw [List.count_append, hcnt0, hels0]
        have hone : [({ floor := f, direction := d } : PickupTask)].count t ≤ 1 := by
          by_cases hh : ({ floor := f, direction := d } : PickupTask) = t <;>
            simp [List.count_cons, hh]
        omega
      · have hone : [({ floor := f, direction := d } : PickupTask)].count t = 0 := by
          simp [List.count_cons]
          exact fun hc => ht (by rw [hc])
        rw [List.count_append, hone]
        have := h t
        unfold taskCount at this
        omega
  · have hw2 : m.isWithinLimits f = false := by
      cases hx : m.isWithinLimits f
      · rfl
      · exact absurd hx hw
    unfold ElevatorManager.pickup
    rw [hw2]
    exact h

/-! ### Claim C2, amended part -/

/-- Claim C2 (amended): the one-place invariant I1 - every task value held by
the system lives in the pool or in a single cabin slot, never in two places -
is preserved by `step()`, `selectFloor`, `setElevator`, `setElevatorCount`,
`setFloorLimits` and `setSoleElevatorMode`; `pickup(floor, direction)`
preserves it provided the task is not currently some cabin assigned pickup,
because its deduplication checks the pool only (so a pickup equal to an
assigned task creates a second copy, as the counterexample shows). -/
theorem c2_task_uniqueness_preserved (m : ElevatorManager) (h : uniqueTasks m) :
    uniqueTasks (m.step).2 ∧
    (∀ idv f, uniqueTasks (m.selectFloor idv f).2) ∧
    (∀ idv f, uniqueTasks (m.setElevator idv f).2) ∧
    (∀ n, uniqueTasks (m.setElevatorCount n)) ∧
    (∀ L, uniqueTasks (m.setFloorLimits L)) ∧
    (∀ b, uniqueTasks (m.setSoleElevatorMode b)) ∧
    (∀ f d, (∀ e ∈ m.elevators, e.currentPickupTask ≠ some { floor := f, direction := d }) →
      uniqueTasks (m.pickup f d).2) := by
  refine ⟨fun t => le_trans (step_taskCount_le m t) (h t),
    fun idv f t => ?_,
    fun idv f t => le_trans (setElevator_taskCount_le m idv f t) (h t),
    fun n t => le_trans (setElevatorCount_taskCount_le m n t) (h t),
    fun L t => h t,
    fun b t => h t,
    fun f d hno => pickup_uniqueTasks m f d hno h⟩
  rw [selectFloor_taskCount]
  exact h t

/-- a fresh one-cabin fleet holds no task at all. -/
theorem mgrOne_uniqueTasks : uniqueTasks mgrOne := by
  intro t
  have h0 : taskCount mgrOne t = 0 := rfl
  omega

/-- witness for `c2_task_uniqueness_preserved` at a concrete input. -/
theorem c2_task_uniqueness_preserved_witness : uniqueTasks ((mgrOne.step).2) :=
  (c2_task_uniqueness_preserved mgrOne mgrOne_uniqueTasks).1

end ElevatorSys
